import Mathlib

/-!
Shallow embedding of the banking service in `main.py` (FastAPI, two JSON
stores: a `users.json` mapping object and a `withdraws.json` array).

Modelling conventions:
* A Python `dict` (the users store) is an association list
  `List (String × UserRec)`; Python guarantees unique keys, which is carried
  as a `Nodup` hypothesis where a proof needs it.
* Python `float` amounts/balances are modelled as exact rationals `ℚ`.
* `datetime.now().isoformat()` is nondeterministic, so every handler that
  stamps a time receives it as an explicit `now : String` argument.
* Each handler maps to `St → St × Except Err α`: the returned state is the
  persisted state after the call, which equals the input state whenever the
  handler raises before any `save_users` / `save_withdraws` call.
-/

/-- One value of the users mapping: `{name, password, balance, created_at}`. -/
structure UserRec where
  name : String
  password : String
  balance : ℚ
  created_at : String
  deriving Repr, DecidableEq

/-- One element of the withdrawal log: `{user, amount, status, timestamp,
processed_at}`.  `status` is kept as the raw string stored in the JSON file
("Pending" / "Approved" / "Rejected" as written by the handlers). -/
structure WithdrawRec where
  user : String
  amount : ℚ
  status : String
  timestamp : String
  processed_at : Option String
  deriving Repr, DecidableEq

/-- The whole persisted state: the users mapping and the withdrawal array. -/
structure St where
  users : List (String × UserRec)
  withdraws : List WithdrawRec
  deriving Repr, DecidableEq

/-- Error outcomes of the handlers.  Each constructor corresponds to one
`raise` site of `main.py` (HTTP status in the comment). -/
inductive Err
  /-- 400 "User already exists" (signup). -/
  | userExists
  /-- 400 "Password must be at least 6 characters" (signup). -/
  | shortPassword
  /-- 401 "Invalid credentials" (login). -/
  | invalidCredentials
  /-- 404 "User not found". -/
  | userNotFound
  /-- 400 "Amount must be positive". -/
  | amountNotPositive
  /-- 400 "Insufficient balance". -/
  | insufficientBalance
  /-- 404 "Invalid request index" (approve/reject). -/
  | invalidIndex
  /-- 400 "Withdrawal already processed" (approve/reject). -/
  | alreadyProcessed
  /-- In `get_withdraws` the parameter `status` shadows the imported
  `fastapi.status` module, so evaluating `status.HTTP_400_BAD_REQUEST` on the
  string raises `AttributeError`, surfaced as an HTTP 500, instead of the
  intended 400 InvalidInput. -/
  | statusAttrError
  /-- Uncaught `KeyError` from `users[email]` in `reject_withdraw` when the
  requesting user is not in the users store (surfaced as HTTP 500); it is
  raised before either store is saved. -/
  | keyError
  deriving Repr, DecidableEq

/-- Dictionary lookup `users[e]` / membership `e in users`. -/
def findUser : List (String × UserRec) → String → Option UserRec
  | [], _ => none
  | p :: rest, e => if p.1 = e then some p.2 else findUser rest e

/-- Update the value stored at key `e` (Python `users[e] = ...` on an
existing key / in-place mutation of the entry). -/
def updUser : List (String × UserRec) → String → (UserRec → UserRec) →
    List (String × UserRec)
  | [], _, _ => []
  | p :: rest, e, f => (if p.1 = e then (p.1, f p.2) else p) :: updUser rest e f

/-- `sum(u["balance"] for u in users.values())`. -/
def sumBalances : List (String × UserRec) → ℚ
  | [] => 0
  | p :: rest => p.2.balance + sumBalances rest

/-- Keys of the users mapping. -/
def userKeys (users : List (String × UserRec)) : List String :=
  users.map Prod.fst

/-- Placeholder record used to give total meaning to an in-range list read. -/
def wDefault : WithdrawRec :=
  { user := "", amount := 0, status := "", timestamp := "", processed_at := none }

/-- `withdraws[i]` under an in-range guard. -/
def wAt (l : List WithdrawRec) (i : Nat) : WithdrawRec :=
  (l[i]?).getD wDefault

/-- Python `str.lower()` (ASCII), written directly on the character list so
that it evaluates by kernel reduction. -/
def pyLower (s : String) : String :=
  ⟨s.data.map Char.toLower⟩

/-- POST /signup (`signup` in main.py). -/
def signup (name email password now : String) (s : St) : St × Except Err Unit :=
  if (findUser s.users email).isSome then
    (s, .error .userExists)
  else if password.length < 6 then
    (s, .error .shortPassword)
  else
    ({ s with users := s.users ++
        [(email, { name := name, password := password, balance := 0, created_at := now })] },
     .ok ())

/-- POST /login (`login` in main.py). -/
def login (email password : String) (s : St) : St × Except Err Unit :=
  match findUser s.users email with
  | none => (s, .error .invalidCredentials)
  | some u =>
    if u.password ≠ password then (s, .error .invalidCredentials)
    else (s, .ok ())

/-- GET /balance/{email} (`get_balance` in main.py). -/
def get_balance (email : String) (s : St) : St × Except Err ℚ :=
  match findUser s.users email with
  | none => (s, .error .userNotFound)
  | some u => (s, .ok u.balance)

/-- POST /add_balance (`add_balance` in main.py); `to_email` is ignored. -/
def add_balance (from_email : String) (amount : ℚ) (s : St) : St × Except Err Unit :=
  match findUser s.users from_email with
  | none => (s, .error .userNotFound)
  | some _ =>
    if amount ≤ 0 then (s, .error .amountNotPositive)
    else
      let users1 := updUser s.users from_email
        (fun u => { u with balance := u.balance + amount })
      ({ s with users := users1 }, .ok ())

/-- POST /transfer (`transfer` in main.py); returns `new_balance`, read from
the source entry after both mutations. -/
def transfer (from_email to_email : String) (amount : ℚ) (s : St) :
    St × Except Err ℚ :=
  match findUser s.users from_email, findUser s.users to_email with
  | none, _ => (s, .error .userNotFound)
  | some _, none => (s, .error .userNotFound)
  | some fu, some _ =>
    if amount ≤ 0 then (s, .error .amountNotPositive)
    else if fu.balance < amount then (s, .error .insufficientBalance)
    else
      let users1 := updUser s.users from_email
        (fun u => { u with balance := u.balance - amount })
      let users2 := updUser users1 to_email
        (fun u => { u with balance := u.balance + amount })
      ({ s with users := users2 },
       .ok (((findUser users2 from_email).map UserRec.balance).getD 0))

/-- POST /withdraw (`withdraw` in main.py); returns `request_id`
(= `len(withdraws) - 1` after the append). -/
def withdraw (email : String) (amount : ℚ) (now : String) (s : St) :
    St × Except Err Nat :=
  match findUser s.users email with
  | none => (s, .error .userNotFound)
  | some u =>
    if amount ≤ 0 then (s, .error .amountNotPositive)
    else if u.balance < amount then (s, .error .insufficientBalance)
    else
      ({ users := updUser s.users email
           (fun v => { v with balance := v.balance - amount }),
         withdraws := s.withdraws ++
           [{ user := email, amount := amount, status := "Pending",
              timestamp := now, processed_at := none }] },
       .ok s.withdraws.length)

/-- GET /withdraws (`get_withdraws` in main.py).  `if status:` is Python
truthiness, so `none` and the empty string both skip the filter branch.  The
validity check is a case-sensitive membership test, while the filtering
itself compares lowercased strings. -/
def get_withdraws (statusFilter : Option String) (s : St) :
    St × Except Err (List WithdrawRec) :=
  match statusFilter with
  | none => (s, .ok s.withdraws)
  | some q =>
    if q = "" then (s, .ok s.withdraws)
    else if q ≠ "Pending" ∧ q ≠ "Approved" ∧ q ≠ "Rejected" then
      (s, .error .statusAttrError)
    else
      (s, .ok (s.withdraws.filter (fun w => pyLower w.status = pyLower q)))

/-- POST /approve_withdraw/{index} (`approve_withdraw` in main.py). -/
def approve_withdraw (index : Int) (now : String) (s : St) : St × Except Err Unit :=
  if index < 0 ∨ (s.withdraws.length : Int) ≤ index then
    (s, .error .invalidIndex)
  else
    let i := index.toNat
    let w := wAt s.withdraws i
    if w.status ≠ "Pending" then (s, .error .alreadyProcessed)
    else
      let withdraws1 := s.withdraws.set i
        { w with status := "Approved", processed_at := some now }
      ({ s with withdraws := withdraws1 }, .ok ())

/-- POST /reject_withdraw/{index} (`reject_withdraw` in main.py).  The
`keyError` branch models the uncaught `KeyError` of `users[email]` when the
requesting user is missing; it occurs before either save, so the state is
unchanged there. -/
def reject_withdraw (index : Int) (now : String) (s : St) : St × Except Err Unit :=
  if index < 0 ∨ (s.withdraws.length : Int) ≤ index then
    (s, .error .invalidIndex)
  else
    let i := index.toNat
    let w := wAt s.withdraws i
    if w.status ≠ "Pending" then (s, .error .alreadyProcessed)
    else
      match findUser s.users w.user with
      | none => (s, .error .keyError)
      | some _ =>
        ({ users := updUser s.users w.user
             (fun u => { u with balance := u.balance + w.amount }),
           withdraws := s.withdraws.set i
             { w with status := "Rejected", processed_at := some now } },
         .ok ())

/-- Result record of GET /stats (`get_stats` in main.py). -/
structure StatsOut where
  total_users : Nat
  total_balance : ℚ
  total_withdraws : Nat
  approved_withdraws : ℚ
  pending_withdraws : ℚ
  deriving Repr, DecidableEq

/-- GET /stats (`get_stats` in main.py); pure read. -/
def get_stats (s : St) : St × Except Err StatsOut :=
  (s, .ok
    { total_users := s.users.length,
      total_balance := sumBalances s.users,
      total_withdraws := s.withdraws.length,
      approved_withdraws :=
        ((s.withdraws.filter (fun w => w.status = "Approved")).map
          (fun w => w.amount)).sum,
      pending_withdraws :=
        ((s.withdraws.filter (fun w => w.status = "Pending")).map
          (fun w => w.amount)).sum })

/-- One API call, with all request data (including the wall-clock stamp the
handler would take) as constructor arguments. -/
inductive Op
  | signup (name email password now : String)
  | login (email password : String)
  | getBalance (email : String)
  | addBalance (from_email : String) (amount : ℚ)
  | transfer (from_email to_email : String) (amount : ℚ)
  | withdraw (email : String) (amount : ℚ) (now : String)
  | listWithdraws (statusFilter : Option String)
  | approve (index : Int) (now : String)
  | reject (index : Int) (now : String)
  | stats

/-- Forget a handler's success payload, keeping state and error. -/
def dropOut {α : Type} : St × Except Err α → St × Except Err Unit
  | (s, .ok _) => (s, .ok ())
  | (s, .error e) => (s, .error e)

/-- Dispatch one API call. -/
def runOp : Op → St → St × Except Err Unit
  | .signup n e p now, s => signup n e p now s
  | .login e p, s => login e p s
  | .getBalance e, s => dropOut (get_balance e s)
  | .addBalance f a, s => add_balance f a s
  | .transfer f t a, s => dropOut (transfer f t a s)
  | .withdraw e a now, s => dropOut (withdraw e a now s)
  | .listWithdraws q, s => dropOut (get_withdraws q s)
  | .approve i now, s => approve_withdraw i now s
  | .reject i now, s => reject_withdraw i now s
  | .stats, s => dropOut (get_stats s)

/-- The state left behind by one API call (the store files after it). -/
def stepOp (op : Op) (s : St) : St :=
  (runOp op s).1

/-- The state after a sequence of API calls. -/
def runOps (ops : List Op) (s : St) : St :=
  ops.foldl (fun s op => stepOp op s) s

/-- Balance read used in statements: `users[e]["balance"]` (0 if absent). -/
def getBal (users : List (String × UserRec)) (e : String) : ℚ :=
  ((findUser users e).map UserRec.balance).getD 0

/-- All balances of the users store are non-negative. -/
def nonnegBalances (users : List (String × UserRec)) : Prop :=
  ∀ p ∈ users, 0 ≤ p.2.balance

/-- Data-model invariant of the withdrawal log (spec §3: `amount` is a
positive decimal): every Pending request holds a positive amount. -/
def wfPending (withdraws : List WithdrawRec) : Prop :=
  ∀ w ∈ withdraws, w.status = "Pending" → 0 < w.amount

/-- States conforming to the data model: unique dictionary keys,
non-negative balances, positive Pending amounts. -/
def StInv (s : St) : Prop :=
  (userKeys s.users).Nodup ∧ nonnegBalances s.users ∧ wfPending s.withdraws

/-! ### Association-list lemmas for the users dictionary -/

theorem userKeys_updUser (users : List (String × UserRec)) (e : String)
    (f : UserRec → UserRec) : userKeys (updUser users e f) = userKeys users := by
  induction users with
  | nil => rfl
  | cons p rest ih =>
    by_cases hpe : p.1 = e <;> simp [updUser, userKeys, hpe] <;>
      simpa [userKeys] using ih

theorem findUser_updUser (users : List (String × UserRec)) (e e' : String)
    (f : UserRec → UserRec) :
    findUser (updUser users e f) e' =
      if e' = e then (findUser users e').map f else findUser users e' := by
  induction users with
  | nil => simp [findUser, updUser]
  | cons p rest ih =>
    simp only [updUser, findUser]
    have hkey : (if p.1 = e then (p.1, f p.2) else p).1 = p.1 := by
      split <;> rfl
    by_cases h2 : e' = e
    · subst h2
      by_cases h1 : p.1 = e'
      · simp [findUser, hkey, h1]
      · simp [findUser, hkey, h1, ih]
    · by_cases h1 : p.1 = e'
      · have hne : ¬ p.1 = e := fun hc => h2 ((h1.symm.trans hc))
        simp [findUser, hkey, h1, hne, h2]
      · simp [findUser, hkey, h1, h2, ih]

theorem mem_updUser {users : List (String × UserRec)} {e : String}
    {f : UserRec → UserRec} {q : String × UserRec} (hq : q ∈ updUser users e f) :
    ∃ p ∈ users, (p.1 ≠ e ∧ q = p) ∨ (p.1 = e ∧ q = (p.1, f p.2)) := by
  induction users with
  | nil => simp [updUser] at hq
  | cons p rest ih =>
    simp only [updUser, List.mem_cons] at hq
    rcases hq with hq | hq
    · refine ⟨p, List.mem_cons_self _ _, ?_⟩
      by_cases hpe : p.1 = e
      · right
        rw [if_pos hpe] at hq
        exact ⟨hpe, hq⟩
      · left
        rw [if_neg hpe] at hq
        exact ⟨hpe, hq⟩
    · rcases ih hq with ⟨p', hp', hcase⟩
      exact ⟨p', List.mem_cons_of_mem _ hp', hcase⟩

theorem findUser_eq_none_iff (users : List (String × UserRec)) (e : String) :
    findUser users e = none ↔ e ∉ userKeys users := by
  induction users with
  | nil => simp [findUser, userKeys]
  | cons p rest ih =>
    have huk : userKeys (p :: rest) = p.1 :: userKeys rest := rfl
    rw [huk, List.mem_cons]
    by_cases hpe : p.1 = e
    · subst hpe
      simp [findUser]
    · have hne : ¬ e = p.1 := fun hc => hpe hc.symm
      simp [findUser, hpe, ih, hne]

theorem findUser_mem {users : List (String × UserRec)} {e : String} {u : UserRec}
    (h : findUser users e = some u) : (e, u) ∈ users := by
  induction users with
  | nil => simp [findUser] at h
  | cons p rest ih =>
    by_cases hpe : p.1 = e <;> simp [findUser, hpe] at h
    · subst hpe
      simp [← h]
    · exact List.mem_cons_of_mem _ (ih h)

theorem findUser_of_mem_nodup {users : List (String × UserRec)}
    (hnd : (userKeys users).Nodup) {p : String × UserRec} (hp : p ∈ users) :
    findUser users p.1 = some p.2 := by
  induction users with
  | nil => simp at hp
  | cons q rest ih =>
    simp only [userKeys, List.map_cons, List.nodup_cons] at hnd
    rcases List.mem_cons.mp hp with hp | hp
    · subst hp; simp [findUser]
    · have hne : q.1 ≠ p.1 := by
        intro hcontra
        exact hnd.1 (hcontra ▸ List.mem_map_of_mem Prod.fst hp)
      simpa [findUser, hne] using ih hnd.2 hp

theorem updUser_of_not_mem {users : List (String × UserRec)} {e : String}
    (f : UserRec → UserRec) (h : e ∉ userKeys users) : updUser users e f = users := by
  induction users with
  | nil => rfl
  | cons p rest ih =>
    have huk : userKeys (p :: rest) = p.1 :: userKeys rest := rfl
    rw [huk, List.mem_cons, not_or] at h
    have hne : ¬ p.1 = e := fun hc => h.1 hc.symm
    simp [updUser, hne, ih h.2]

theorem sumBalances_updUser {users : List (String × UserRec)} {e : String}
    {u : UserRec} (f : UserRec → UserRec) (hnd : (userKeys users).Nodup)
    (h : findUser users e = some u) :
    sumBalances (updUser users e f) = sumBalances users + ((f u).balance - u.balance) := by
  induction users with
  | nil => simp [findUser] at h
  | cons p rest ih =>
    simp only [userKeys, List.map_cons, List.nodup_cons] at hnd
    by_cases hpe : p.1 = e
    · simp only [findUser, if_pos hpe] at h
      have hrest : updUser rest e f = rest := by
        refine updUser_of_not_mem f ?_
        intro hmem
        exact hnd.1 (hpe ▸ hmem)
      obtain rfl : p.2 = u := by injection h
      simp [updUser, if_pos hpe, sumBalances, hrest]
      ring
    · simp only [findUser, if_neg hpe] at h
      simp [updUser, hpe, sumBalances, ih hnd.2 h]
      ring

theorem updUser_updUser (users : List (String × UserRec)) (e : String)
    (f g : UserRec → UserRec) :
    updUser (updUser users e f) e g = updUser users e (fun u => g (f u)) := by
  induction users with
  | nil => rfl
  | cons p rest ih =>
    by_cases hpe : p.1 = e <;> simp [updUser, hpe, ih]

theorem updUser_id_of (users : List (String × UserRec)) (e : String)
    (f : UserRec → UserRec) (hf : ∀ u, f u = u) : updUser users e f = users := by
  induction users with
  | nil => rfl
  | cons p rest ih =>
    by_cases hpe : p.1 = e
    · simp only [updUser, if_pos hpe, hf, ih]
    · simp only [updUser, if_neg hpe, ih]

theorem nonnegBalances_updUser {users : List (String × UserRec)} {e : String}
    {u : UserRec} {f : UserRec → UserRec} (hnd : (userKeys users).Nodup)
    (h : findUser users e = some u) (hn : nonnegBalances users)
    (hf : 0 ≤ (f u).balance) : nonnegBalances (updUser users e f) := by
  intro q hq
  rcases mem_updUser hq with ⟨p, hp, hcase | hcase⟩
  · exact hcase.2 ▸ hn p hp
  · have : findUser users p.1 = some p.2 := findUser_of_mem_nodup hnd hp
    rw [hcase.1] at this
    obtain rfl : p.2 = u := by rw [this] at h; injection h
    rw [hcase.2]
    exact hf

/-! ### State preservation of read-only handlers -/

theorem dropOut_fst {α : Type} (x : St × Except Err α) : (dropOut x).1 = x.1 := by
  rcases x with ⟨s, e⟩
  cases e <;> rfl

theorem login_fst (email password : String) (s : St) : (login email password s).1 = s := by
  unfold login
  split
  · rfl
  · split <;> rfl

theorem get_balance_fst (email : String) (s : St) : (get_balance email s).1 = s := by
  unfold get_balance
  split <;> rfl

theorem get_withdraws_fst (q : Option String) (s : St) : (get_withdraws q s).1 = s := by
  unfold get_withdraws
  split
  · rfl
  · split
    · rfl
    · split <;> rfl

theorem get_stats_fst (s : St) : (get_stats s).1 = s := rfl

/-! ### Invariant preservation, one lemma per mutating handler -/

theorem stInv_signup (n e p now : String) {s : St} (h : StInv s) :
    StInv (signup n e p now s).1 := by
  obtain ⟨hnd, hnn, hwf⟩ := h
  unfold signup
  by_cases hmem : (findUser s.users e).isSome = true
  · rw [if_pos hmem]
    exact ⟨hnd, hnn, hwf⟩
  · rw [if_neg hmem]
    by_cases hlen : p.length < 6
    · rw [if_pos hlen]
      exact ⟨hnd, hnn, hwf⟩
    · rw [if_neg hlen]
      have hnone : findUser s.users e = none := by
        cases hfe : findUser s.users e
        · rfl
        · exact absurd (by simp [hfe]) hmem
      have hnotin : e ∉ userKeys s.users := (findUser_eq_none_iff _ _).mp hnone
      refine ⟨?_, ?_, hwf⟩
      · have : userKeys (s.users ++
            [(e, { name := n, password := p, balance := 0, created_at := now })]) =
            userKeys s.users ++ [e] := by
          simp [userKeys]
        rw [this, List.nodup_append]
        exact ⟨hnd, List.nodup_singleton e, by simpa [List.disjoint_left] using hnotin⟩
      · intro q hq
        rcases List.mem_append.mp hq with hq | hq
        · exact hnn q hq
        · simp at hq
          simp [hq]

theorem stInv_add_balance (e : String) (a : ℚ) {s : St} (h : StInv s) :
    StInv (add_balance e a s).1 := by
  obtain ⟨hnd, hnn, hwf⟩ := h
  unfold add_balance
  cases hfind : findUser s.users e with
  | none => exact ⟨hnd, hnn, hwf⟩
  | some u =>
    by_cases ha : a ≤ 0
    · rw [if_pos ha]
      exact ⟨hnd, hnn, hwf⟩
    · rw [if_neg ha]
      refine ⟨by simpa [userKeys_updUser] using hnd, ?_, hwf⟩
      refine nonnegBalances_updUser hnd hfind hnn ?_
      have hu : 0 ≤ u.balance := hnn (e, u) (findUser_mem hfind)
      simp only []
      linarith

theorem stInv_transfer (ef et : String) (a : ℚ) {s : St} (h : StInv s) :
    StInv (transfer ef et a s).1 := by
  obtain ⟨hnd, hnn, hwf⟩ := h
  unfold transfer
  cases hf : findUser s.users ef with
  | none => exact ⟨hnd, hnn, hwf⟩
  | some fu =>
    cases ht : findUser s.users et with
    | none => exact ⟨hnd, hnn, hwf⟩
    | some tu =>
      simp only []
      by_cases ha : a ≤ 0
      · rw [if_pos ha]
        exact ⟨hnd, hnn, hwf⟩
      · rw [if_neg ha]
        by_cases hb : fu.balance < a
        · rw [if_pos hb]
          exact ⟨hnd, hnn, hwf⟩
        · rw [if_neg hb]
          have hfu : 0 ≤ fu.balance := hnn (ef, fu) (findUser_mem hf)
          have htu : 0 ≤ tu.balance := hnn (et, tu) (findUser_mem ht)
          have hnd1 : (userKeys (updUser s.users ef
              (fun u => { u with balance := u.balance - a }))).Nodup := by
            simpa [userKeys_updUser] using hnd
          have hnn1 : nonnegBalances (updUser s.users ef
              (fun u => { u with balance := u.balance - a })) := by
            refine nonnegBalances_updUser hnd hf hnn ?_
            simp only []
            linarith
          have h1 : ∃ tu1, findUser (updUser s.users ef
              (fun u => { u with balance := u.balance - a })) et = some tu1 ∧
              0 ≤ tu1.balance := by
            by_cases htf : et = ef
            · subst htf
              rw [ht] at hf
              have hequ : tu = fu := by injection hf
              refine ⟨{ tu with balance := tu.balance - a }, ?_, ?_⟩
              · rw [findUser_updUser, if_pos rfl, ht]
                rfl
              · simp only []
                rw [hequ]
                linarith
            · refine ⟨tu, ?_, htu⟩
              rw [findUser_updUser, if_neg htf, ht]
          obtain ⟨tu1, htu1, htu1n⟩ := h1
          refine ⟨by simpa [userKeys_updUser] using hnd, ?_, hwf⟩
          refine nonnegBalances_updUser hnd1 htu1 hnn1 ?_
          simp only []
          linarith

theorem stInv_withdraw (e : String) (a : ℚ) (now : String) {s : St} (h : StInv s) :
    StInv (withdraw e a now s).1 := by
  obtain ⟨hnd, hnn, hwf⟩ := h
  unfold withdraw
  cases hfind : findUser s.users e with
  | none => exact ⟨hnd, hnn, hwf⟩
  | some u =>
    simp only []
    by_cases ha : a ≤ 0
    · rw [if_pos ha]
      exact ⟨hnd, hnn, hwf⟩
    · rw [if_neg ha]
      by_cases hb : u.balance < a
      · rw [if_pos hb]
        exact ⟨hnd, hnn, hwf⟩
      · rw [if_neg hb]
        refine ⟨by simpa [userKeys_updUser] using hnd, ?_, ?_⟩
        · refine nonnegBalances_updUser hnd hfind hnn ?_
          simp only []
          linarith
        · intro w hw
          rcases List.mem_append.mp hw with hw | hw
          · exact hwf w hw
          · simp at hw
            subst hw
            intro _
            simpa using lt_of_not_le ha

theorem wAt_getElem {l : List WithdrawRec} {i : Nat} (h : i < l.length) :
    l[i]? = some (wAt l i) := by
  simp [wAt, List.getElem?_eq_getElem h]

theorem wAt_mem {l : List WithdrawRec} {i : Nat} (h : i < l.length) :
    wAt l i ∈ l := by
  have hg : l[i]? = some l[i] := List.getElem?_eq_getElem h
  have : wAt l i = l[i] := by simp [wAt, hg]
  rw [this]
  exact List.getElem_mem h

theorem stInv_approve (index : Int) (now : String) {s : St} (h : StInv s) :
    StInv (approve_withdraw index now s).1 := by
  obtain ⟨hnd, hnn, hwf⟩ := h
  unfold approve_withdraw
  by_cases hidx : index < 0 ∨ (s.withdraws.length : Int) ≤ index
  · rw [if_pos hidx]
    exact ⟨hnd, hnn, hwf⟩
  · rw [if_neg hidx]
    simp only []
    by_cases hst : (wAt s.withdraws index.toNat).status ≠ "Pending"
    · rw [if_pos hst]
      exact ⟨hnd, hnn, hwf⟩
    · rw [if_neg hst]
      refine ⟨hnd, hnn, ?_⟩
      intro w hw
      rcases List.mem_or_eq_of_mem_set hw with hw | hw
      · exact hwf w hw
      · subst hw
        intro hc
        simp at hc

theorem stInv_reject (index : Int) (now : String) {s : St} (h : StInv s) :
    StInv (reject_withdraw index now s).1 := by
  obtain ⟨hnd, hnn, hwf⟩ := h
  unfold reject_withdraw
  by_cases hidx : index < 0 ∨ (s.withdraws.length : Int) ≤ index
  · rw [if_pos hidx]
    exact ⟨hnd, hnn, hwf⟩
  · rw [if_neg hidx]
    simp only []
    by_cases hst : (wAt s.withdraws index.toNat).status ≠ "Pending"
    · rw [if_pos hst]
      exact ⟨hnd, hnn, hwf⟩
    · rw [if_neg hst]
      cases hfind : findUser s.users (wAt s.withdraws index.toNat).user with
      | none => exact ⟨hnd, hnn, hwf⟩
      | some u =>
        push_neg at hidx hst
        have hlen : index.toNat < s.withdraws.length := by omega
        have hwmem : wAt s.withdraws index.toNat ∈ s.withdraws := wAt_mem hlen
        have hamt : 0 < (wAt s.withdraws index.toNat).amount := hwf _ hwmem hst
        refine ⟨by simpa [userKeys_updUser] using hnd, ?_, ?_⟩
        · refine nonnegBalances_updUser hnd hfind hnn ?_
          have hu : 0 ≤ u.balance := hnn _ (findUser_mem hfind)
          simp only []
          linarith
        · intro w hw
          rcases List.mem_or_eq_of_mem_set hw with hw | hw
          · exact hwf w hw
          · subst hw
            intro hc
            simp at hc

theorem stInv_stepOp (op : Op) {s : St} (h : StInv s) : StInv (stepOp op s) := by
  cases op with
  | signup n e p now => exact stInv_signup n e p now h
  | login e p => simpa [stepOp, runOp, login_fst] using h
  | getBalance e => simpa [stepOp, runOp, dropOut_fst, get_balance_fst] using h
  | addBalance f a => exact stInv_add_balance f a h
  | transfer f t a => simpa [stepOp, runOp, dropOut_fst] using stInv_transfer f t a h
  | withdraw e a now => simpa [stepOp, runOp, dropOut_fst] using stInv_withdraw e a now h
  | listWithdraws q => simpa [stepOp, runOp, dropOut_fst, get_withdraws_fst] using h
  | approve i now => exact stInv_approve i now h
  | reject i now => exact stInv_reject i now h
  | stats => simpa [stepOp, runOp, dropOut_fst, get_stats_fst] using h

theorem stInv_runOps (ops : List Op) {s : St} (h : StInv s) : StInv (runOps ops s) := by
  induction ops generalizing s with
  | nil => exact h
  | cons op rest ih => exact ih (stInv_stepOp op h)

/-! ### Concrete data for witnesses and counterexamples -/

/-- A registered user with balance 100. -/
def uA : UserRec :=
  { name := "A", password := "secret1", balance := 100, created_at := "t0" }

/-- A second registered user with balance 5. -/
def uB : UserRec :=
  { name := "B", password := "secret2", balance := 5, created_at := "t0" }

/-- A two-user state with an empty withdrawal log. -/
def stW : St :=
  { users := [("a@x", uA), ("b@y", uB)], withdraws := [] }

/-- A Pending withdrawal request of 40 by `a@x`. -/
def wPend : WithdrawRec :=
  { user := "a@x", amount := 40, status := "Pending", timestamp := "t1",
    processed_at := none }

/-- A one-user state with one Pending request in the log. -/
def stP : St :=
  { users := [("a@x", uA), ("b@y", uB)], withdraws := [wPend] }

/-- An Approved request (already processed). -/
def wAppr : WithdrawRec :=
  { user := "a@x", amount := 40, status := "Approved", timestamp := "t1",
    processed_at := some "t2" }

/-- A state whose only logged request is already Approved. -/
def stA : St :=
  { users := [("a@x", uA), ("b@y", uB)], withdraws := [wAppr] }

/-- A sample operation sequence exercising every mutating endpoint. -/
def opsW : List Op :=
  [.withdraw "a@x" 40 "t1", .reject 0 "t2", .transfer "a@x" "b@y" 60,
   .addBalance "b@y" 1, .withdraw "b@y" 3 "t3", .approve 0 "t4"]

/-! ### Claim C1 -/

/-- C1: from any state satisfying the data-model invariants of spec §3 —
all balances non-negative, every Pending request carrying a positive amount,
users keyed uniquely — any sequence of API calls (each one either committed
or leaving the stores untouched) keeps every user's balance ≥ 0 after every
step: the quantification over all `ops` covers every prefix. -/
theorem C1_balances_nonneg (s : St) (hs : StInv s) (ops : List Op) :
    nonnegBalances (runOps ops s).users :=
  (stInv_runOps ops hs).2.1

theorem C1_balances_nonneg_witness :
    StInv stW ∧ nonnegBalances (runOps opsW stW).users :=
  ⟨⟨by decide, by unfold nonnegBalances; decide, by unfold wfPending; decide⟩,
   C1_balances_nonneg stW
     ⟨by decide, by unfold nonnegBalances; decide, by unfold wfPending; decide⟩ opsW⟩

/-! ### Claim C8 -/

/-- C8: when the email is already registered, signup fails with the
"User already exists" conflict for every name and password — the duplicate
check precedes the password-length check, so even a short password gives
Conflict — and the state (in particular the users store) is unchanged. -/
theorem C8_signup_conflict (s : St) (name email password now : String)
    (h : (findUser s.users email).isSome = true) :
    signup name email password now s = (s, .error .userExists) := by
  unfold signup
  rw [if_pos h]

theorem C8_signup_conflict_witness :
    (findUser stW.users "a@x").isSome = true ∧
      signup "Z" "a@x" "x" "t9" stW = (stW, .error .userExists) :=
  ⟨by decide, C8_signup_conflict stW "Z" "a@x" "x" "t9" (by decide)⟩

/-! ### Claim C3 -/

/-- C3: a successful withdraw (registered email, positive amount, sufficient
balance) debits the balance by exactly `amount`, appends one Pending record
with null `processed_at` at the end of the log, and returns the previous log
length as `request_id`. -/
theorem C3_withdraw_commit (s : St) (email : String) (amount : ℚ)
    (now : String) (u : UserRec) (hfind : findUser s.users email = some u)
    (hpos : 0 < amount) (hbal : amount ≤ u.balance) :
    (withdraw email amount now s).2 = .ok s.withdraws.length ∧
    (withdraw email amount now s).1.withdraws =
      s.withdraws ++ [{ user := email, amount := amount,
                        status := "Pending", timestamp := now,
                        processed_at := none }] ∧
    getBal (withdraw email amount now s).1.users email =
      getBal s.users email - amount := by
  have ha : ¬ amount ≤ 0 := not_le.mpr hpos
  have hb : ¬ u.balance < amount := not_lt.mpr hbal
  unfold withdraw
  rw [hfind]
  simp only []
  rw [if_neg ha, if_neg hb]
  refine ⟨rfl, rfl, ?_⟩
  simp [getBal, findUser_updUser, hfind]

theorem C3_withdraw_commit_witness :
    findUser stW.users "a@x" = some uA ∧
    ((withdraw "a@x" 40 "t1" stW).2 = .ok stW.withdraws.length ∧
     (withdraw "a@x" 40 "t1" stW).1.withdraws =
       stW.withdraws ++ [{ user := "a@x", amount := 40,
                           status := "Pending", timestamp := "t1",
                           processed_at := none }] ∧
     getBal (withdraw "a@x" 40 "t1" stW).1.users "a@x" =
       getBal stW.users "a@x" - 40) :=
  ⟨by decide, C3_withdraw_commit stW "a@x" 40 "t1" uA (by decide) (by decide) (by decide)⟩

/-! ### Claim C10 -/

/-- C10: the empty string as status filter is falsy in Python, so the filter
branch (and its validation) is skipped and the call behaves exactly like the
call with no filter at all: it returns every request. -/
theorem C10_empty_filter_returns_all (s : St) :
    get_withdraws (some "") s = (s, .ok s.withdraws) ∧
    get_withdraws (some "") s = get_withdraws none s := by
  constructor <;> rfl

/-! ### Claim C5 -/

/-- C5: approve of an in-range Pending request succeeds, overwrites exactly
that record with status "Approved" and a non-null `processed_at`, and leaves
the users store and every other withdrawal record unchanged. -/
theorem C5_approve_frame (s : St) (index : Int) (now : String)
    (hlo : 0 ≤ index) (hhi : index < (s.withdraws.length : Int))
    (hst : (wAt s.withdraws index.toNat).status = "Pending") :
    (approve_withdraw index now s).2 = .ok () ∧
    (approve_withdraw index now s).1.users = s.users ∧
    ((approve_withdraw index now s).1.withdraws[index.toNat]?) =
      some { wAt s.withdraws index.toNat with
             status := "Approved", processed_at := some now } ∧
    (some now ≠ (none : Option String)) ∧
    (∀ j : Nat, j ≠ index.toNat →
      ((approve_withdraw index now s).1.withdraws[j]?) = s.withdraws[j]?) := by
  have hidx : ¬ (index < 0 ∨ (s.withdraws.length : Int) ≤ index) := by omega
  have hlen : index.toNat < s.withdraws.length := by omega
  unfold approve_withdraw
  rw [if_neg hidx]
  simp only []
  rw [if_neg (by simp [hst])]
  refine ⟨rfl, rfl, ?_, by simp, ?_⟩
  · exact List.getElem?_set_eq_of_lt _ hlen
  · intro j hj
    exact List.getElem?_set_ne (Ne.symm hj)

theorem C5_approve_frame_witness :
    ((0 : Int) ≤ 0 ∧ (0 : Int) < (stP.withdraws.length : Int) ∧
      (wAt stP.withdraws (0 : Int).toNat).status = "Pending") ∧
    ((approve_withdraw 0 "t2" stP).2 = .ok () ∧
     (approve_withdraw 0 "t2" stP).1.users = stP.users ∧
     ((approve_withdraw 0 "t2" stP).1.withdraws[(0 : Int).toNat]?) =
       some { wAt stP.withdraws (0 : Int).toNat with
              status := "Approved", processed_at := some "t2" } ∧
     (some "t2" ≠ (none : Option String)) ∧
     (∀ j : Nat, j ≠ (0 : Int).toNat →
       ((approve_withdraw 0 "t2" stP).1.withdraws[j]?) = stP.withdraws[j]?)) :=
  ⟨⟨by decide, by decide, by decide⟩,
   C5_approve_frame stP 0 "t2" (by decide) (by decide) (by decide)⟩

/-! ### Frame lemmas on the withdrawal log, used for claim C6 -/

theorem signup_withdraws_eq (n e p now : String) (s : St) :
    (signup n e p now s).1.withdraws = s.withdraws := by
  unfold signup
  split
  · rfl
  · split <;> rfl

theorem add_balance_withdraws_eq (e : String) (a : ℚ) (s : St) :
    (add_balance e a s).1.withdraws = s.withdraws := by
  unfold add_balance
  cases findUser s.users e
  · rfl
  · simp only []
    split <;> rfl

theorem transfer_withdraws_eq (ef et : String) (a : ℚ) (s : St) :
    (transfer ef et a s).1.withdraws = s.withdraws := by
  unfold transfer
  cases findUser s.users ef
  · rfl
  · cases findUser s.users et
    · rfl
    · simp only []
      split
      · rfl
      · split <;> rfl

theorem withdraw_withdraws_getElem (e : String) (a : ℚ) (now : String) (s : St)
    (i : Nat) (hi : i < s.withdraws.length) :
    ((withdraw e a now s).1.withdraws[i]?) = s.withdraws[i]? := by
  unfold withdraw
  cases findUser s.users e
  · rfl
  · simp only []
    split
    · rfl
    · split
      · rfl
      · exact List.getElem?_append_left hi

theorem approve_status_change (t : Int) (now : String) (s : St) (i : Nat)
    (w w' : WithdrawRec) (hw : s.withdraws[i]? = some w)
    (hw' : ((approve_withdraw t now s).1.withdraws[i]?) = some w')
    (hne : w.status ≠ w'.status) :
    w.status = "Pending" ∧ w'.status = "Approved" := by
  unfold approve_withdraw at hw'
  by_cases hidx : t < 0 ∨ (s.withdraws.length : Int) ≤ t
  · rw [if_pos hidx] at hw'
    simp only [] at hw'
    rw [hw] at hw'
    obtain rfl : w = w' := by injection hw'
    exact absurd rfl hne
  · rw [if_neg hidx] at hw'
    simp only [] at hw'
    by_cases hst : (wAt s.withdraws t.toNat).status ≠ "Pending"
    · rw [if_pos hst] at hw'
      simp only [] at hw'
      rw [hw] at hw'
      obtain rfl : w = w' := by injection hw'
      exact absurd rfl hne
    · rw [if_neg hst] at hw'
      simp only [] at hw'
      push_neg at hst
      by_cases hit : i = t.toNat
      · rw [← hit] at hw' hst
        have hlen : i < s.withdraws.length := (List.getElem?_eq_some.mp hw).1
        rw [List.getElem?_set_eq_of_lt _ hlen] at hw'
        have hwat : wAt s.withdraws i = w := by simp [wAt, hw]
        injection hw' with hw2
        constructor
        · rw [← hwat]
          exact hst
        · rw [← hw2]
      · rw [List.getElem?_set_ne (Ne.symm hit)] at hw'
        rw [hw] at hw'
        obtain rfl : w = w' := by injection hw'
        exact absurd rfl hne

theorem reject_status_change (t : Int) (now : String) (s : St) (i : Nat)
    (w w' : WithdrawRec) (hw : s.withdraws[i]? = some w)
    (hw' : ((reject_withdraw t now s).1.withdraws[i]?) = some w')
    (hne : w.status ≠ w'.status) :
    w.status = "Pending" ∧ w'.status = "Rejected" := by
  unfold reject_withdraw at hw'
  by_cases hidx : t < 0 ∨ (s.withdraws.length : Int) ≤ t
  · rw [if_pos hidx] at hw'
    simp only [] at hw'
    rw [hw] at hw'
    obtain rfl : w = w' := by injection hw'
    exact absurd rfl hne
  · rw [if_neg hidx] at hw'
    simp only [] at hw'
    by_cases hst : (wAt s.withdraws t.toNat).status ≠ "Pending"
    · rw [if_pos hst] at hw'
      simp only [] at hw'
      rw [hw] at hw'
      obtain rfl : w = w' := by injection hw'
      exact absurd rfl hne
    · rw [if_neg hst] at hw'
      push_neg at hst
      cases hfind : findUser s.users (wAt s.withdraws t.toNat).user with
      | none =>
        rw [hfind] at hw'
        simp only [] at hw'
        rw [hw] at hw'
        obtain rfl : w = w' := by injection hw'
        exact absurd rfl hne
      | some u =>
        rw [hfind] at hw'
        simp only [] at hw'
        by_cases hit : i = t.toNat
        · rw [← hit] at hw' hst
          have hlen : i < s.withdraws.length := (List.getElem?_eq_some.mp hw).1
          rw [List.getElem?_set_eq_of_lt _ hlen] at hw'
          have hwat : wAt s.withdraws i = w := by simp [wAt, hw]
          injection hw' with hw2
          constructor
          · rw [← hwat]
            exact hst
          · rw [← hw2]
        · rw [List.getElem?_set_ne (Ne.symm hit)] at hw'
          rw [hw] at hw'
          obtain rfl : w = w' := by injection hw'
          exact absurd rfl hne

/-! ### Claim C6 -/

/-- C6: an in-range request whose status is Approved or Rejected makes both
approve and reject fail with "Withdrawal already processed" (HTTP 400) with
both stores unchanged, and across every operation an existing request's
status can only ever change from "Pending" to "Approved" or "Rejected". -/
theorem C6_terminal_status :
    (∀ (s : St) (index : Int) (now : String),
      0 ≤ index → index < (s.withdraws.length : Int) →
      ((wAt s.withdraws index.toNat).status = "Approved" ∨
        (wAt s.withdraws index.toNat).status = "Rejected") →
      approve_withdraw index now s = (s, .error .alreadyProcessed) ∧
      reject_withdraw index now s = (s, .error .alreadyProcessed)) ∧
    (∀ (op : Op) (s : St) (i : Nat) (w w' : WithdrawRec),
      s.withdraws[i]? = some w →
      ((stepOp op s).withdraws[i]?) = some w' → w.status ≠ w'.status →
      w.status = "Pending" ∧
        (w'.status = "Approved" ∨ w'.status = "Rejected")) := by
  constructor
  · intro s index now hlo hhi hst
    have hidx : ¬ (index < 0 ∨ (s.withdraws.length : Int) ≤ index) := by omega
    have hne : (wAt s.withdraws index.toNat).status ≠ "Pending" := by
      rcases hst with h | h <;> rw [h] <;> decide
    constructor
    · unfold approve_withdraw
      rw [if_neg hidx]
      simp only []
      rw [if_pos hne]
    · unfold reject_withdraw
      rw [if_neg hidx]
      simp only []
      rw [if_pos hne]
  · intro op s i w w' hw hw' hne
    cases op with
    | signup n e p now =>
      rw [show (stepOp (.signup n e p now) s).withdraws = s.withdraws from
        signup_withdraws_eq n e p now s, hw] at hw'
      obtain rfl : w = w' := by injection hw'
      exact absurd rfl hne
    | login e p =>
      rw [show (stepOp (.login e p) s).withdraws = s.withdraws by
        simp [stepOp, runOp, login_fst], hw] at hw'
      obtain rfl : w = w' := by injection hw'
      exact absurd rfl hne
    | getBalance e =>
      rw [show (stepOp (.getBalance e) s).withdraws = s.withdraws by
        simp [stepOp, runOp, dropOut_fst, get_balance_fst], hw] at hw'
      obtain rfl : w = w' := by injection hw'
      exact absurd rfl hne
    | addBalance e a =>
      rw [show (stepOp (.addBalance e a) s).withdraws = s.withdraws from
        add_balance_withdraws_eq e a s, hw] at hw'
      obtain rfl : w = w' := by injection hw'
      exact absurd rfl hne
    | transfer ef et a =>
      rw [show (stepOp (.transfer ef et a) s).withdraws = s.withdraws by
        simp [stepOp, runOp, dropOut_fst, transfer_withdraws_eq], hw] at hw'
      obtain rfl : w = w' := by injection hw'
      exact absurd rfl hne
    | withdraw e a now =>
      have hi : i < s.withdraws.length := (List.getElem?_eq_some.mp hw).1
      rw [show ((stepOp (.withdraw e a now) s).withdraws[i]?) =
          s.withdraws[i]? by
        simpa [stepOp, runOp, dropOut_fst] using
          withdraw_withdraws_getElem e a now s i hi, hw] at hw'
      obtain rfl : w = w' := by injection hw'
      exact absurd rfl hne
    | listWithdraws q =>
      rw [show (stepOp (.listWithdraws q) s).withdraws = s.withdraws by
        simp [stepOp, runOp, dropOut_fst, get_withdraws_fst], hw] at hw'
      obtain rfl : w = w' := by injection hw'
      exact absurd rfl hne
    | approve t now =>
      obtain ⟨h1, h2⟩ := approve_status_change t now s i w w' hw hw' hne
      exact ⟨h1, Or.inl h2⟩
    | reject t now =>
      obtain ⟨h1, h2⟩ := reject_status_change t now s i w w' hw hw' hne
      exact ⟨h1, Or.inr h2⟩
    | stats =>
      rw [show (stepOp .stats s).withdraws = s.withdraws from rfl, hw] at hw'
      obtain rfl : w = w' := by injection hw'
      exact absurd rfl hne

theorem C6_terminal_status_witness :
    (approve_withdraw 0 "t3" stA = (stA, .error .alreadyProcessed) ∧
     reject_withdraw 0 "t3" stA = (stA, .error .alreadyProcessed)) ∧
    ((wPend.status = "Pending") ∧
     (({ wPend with status := "Approved", processed_at := some "t2" }
        : WithdrawRec).status = "Approved" ∨
      ({ wPend with status := "Approved", processed_at := some "t2" }
        : WithdrawRec).status = "Rejected")) :=
  ⟨(C6_terminal_status.1 stA 0 "t3" (by decide) (by decide) (by decide)),
   (C6_terminal_status.2 (.approve 0 "t2") stP 0 wPend
     { wPend with status := "Approved", processed_at := some "t2" }
     (by decide) (by decide) (by decide))⟩

/-! ### Claim C7 -/

deriving instance DecidableEq for Except

theorem dropOut_error {α : Type} {x : St × Except Err α} {e : Err}
    (h : (dropOut x).2 = .error e) : x.2 = .error e := by
  rcases x with ⟨s, r⟩
  cases r with
  | ok a => simp [dropOut] at h
  | error e1 => simpa [dropOut] using h

theorem signup_error_frame (n em p now : String) (s : St) (e : Err)
    (h : (signup n em p now s).2 = .error e) : (signup n em p now s).1 = s := by
  unfold signup at h ⊢
  by_cases h1 : (findUser s.users em).isSome = true
  · rw [if_pos h1]
  · rw [if_neg h1] at h ⊢
    by_cases h2 : p.length < 6
    · rw [if_pos h2]
    · rw [if_neg h2] at h
      exact absurd h (by simp)

theorem add_balance_error_frame (em : String) (a : ℚ) (s : St) (e : Err)
    (h : (add_balance em a s).2 = .error e) : (add_balance em a s).1 = s := by
  unfold add_balance at h ⊢
  cases hfe : findUser s.users em with
  | none => rfl
  | some u =>
    rw [hfe] at h
    simp only [] at h ⊢
    by_cases h1 : a ≤ 0
    · rw [if_pos h1]
    · rw [if_neg h1] at h
      exact absurd h (by simp)

theorem transfer_error_frame (ef et : String) (a : ℚ) (s : St) (e : Err)
    (h : (transfer ef et a s).2 = .error e) : (transfer ef et a s).1 = s := by
  unfold transfer at h ⊢
  cases hfe : findUser s.users ef with
  | none => rfl
  | some fu =>
    cases hft : findUser s.users et with
    | none => rfl
    | some tu =>
      rw [hfe, hft] at h
      simp only [] at h ⊢
      by_cases h1 : a ≤ 0
      · rw [if_pos h1]
      · rw [if_neg h1] at h ⊢
        by_cases h2 : fu.balance < a
        · rw [if_pos h2]
        · rw [if_neg h2] at h
          exact absurd h (by simp)

theorem withdraw_error_frame (em : String) (a : ℚ) (now : String) (s : St)
    (e : Err) (h : (withdraw em a now s).2 = .error e) :
    (withdraw em a now s).1 = s := by
  unfold withdraw at h ⊢
  cases hfe : findUser s.users em with
  | none => rfl
  | some u =>
    rw [hfe] at h
    simp only [] at h ⊢
    by_cases h1 : a ≤ 0
    · rw [if_pos h1]
    · rw [if_neg h1] at h ⊢
      by_cases h2 : u.balance < a
      · rw [if_pos h2]
      · rw [if_neg h2] at h
        exact absurd h (by simp)

theorem approve_error_frame (t : Int) (now : String) (s : St) (e : Err)
    (h : (approve_withdraw t now s).2 = .error e) :
    (approve_withdraw t now s).1 = s := by
  unfold approve_withdraw at h ⊢
  by_cases h1 : t < 0 ∨ (s.withdraws.length : Int) ≤ t
  · rw [if_pos h1]
  · rw [if_neg h1] at h ⊢
    simp only [] at h ⊢
    by_cases h2 : (wAt s.withdraws t.toNat).status ≠ "Pending"
    · rw [if_pos h2]
    · rw [if_neg h2] at h
      exact absurd h (by simp)

theorem reject_error_frame (t : Int) (now : String) (s : St) (e : Err)
    (h : (reject_withdraw t now s).2 = .error e) :
    (reject_withdraw t now s).1 = s := by
  unfold reject_withdraw at h ⊢
  by_cases h1 : t < 0 ∨ (s.withdraws.length : Int) ≤ t
  · rw [if_pos h1]
  · rw [if_neg h1] at h ⊢
    simp only [] at h ⊢
    by_cases h2 : (wAt s.withdraws t.toNat).status ≠ "Pending"
    · rw [if_pos h2]
    · rw [if_neg h2] at h ⊢
      cases hfe : findUser s.users (wAt s.withdraws t.toNat).user with
      | none => rfl
      | some u =>
        rw [hfe] at h
        simp only [] at h
        exact absurd h (by simp)

/-- C7: whenever any API call returns an error, the state it leaves behind
(both the users store and the withdrawal log) is exactly the state before
the call: every raise in main.py happens before any save. -/
theorem C7_error_no_mutation (op : Op) (s : St) (e : Err)
    (h : (runOp op s).2 = .error e) : (runOp op s).1 = s := by
  cases op with
  | signup n em p now => exact signup_error_frame n em p now s e h
  | login em p => exact login_fst em p s
  | getBalance em =>
    rw [show (runOp (.getBalance em) s).1 = (get_balance em s).1 from
      dropOut_fst _]
    exact get_balance_fst em s
  | addBalance em a => exact add_balance_error_frame em a s e h
  | transfer ef et a =>
    rw [show (runOp (.transfer ef et a) s).1 = (transfer ef et a s).1 from
      dropOut_fst _]
    exact transfer_error_frame ef et a s e (dropOut_error h)
  | withdraw em a now =>
    rw [show (runOp (.withdraw em a now) s).1 = (withdraw em a now s).1 from
      dropOut_fst _]
    exact withdraw_error_frame em a now s e (dropOut_error h)
  | listWithdraws q =>
    rw [show (runOp (.listWithdraws q) s).1 = (get_withdraws q s).1 from
      dropOut_fst _]
    exact get_withdraws_fst q s
  | approve t now => exact approve_error_frame t now s e h
  | reject t now => exact reject_error_frame t now s e h
  | stats => rfl

theorem C7_error_no_mutation_witness :
    (runOp (.transfer "a@x" "b@y" 150) stW).2 = .error .insufficientBalance ∧
    (runOp (.transfer "a@x" "b@y" 150) stW).1 = stW :=
  ⟨by decide,
   C7_error_no_mutation (.transfer "a@x" "b@y" 150) stW .insufficientBalance
     (by decide)⟩

/-! ### Claim C2 -/

/-- C2 (amended): a successful transfer always conserves the sum of all
balances; when the two accounts are distinct the source is decremented and
the destination incremented by exactly `amount`; a successful self-transfer
(from = to) leaves the users store unchanged (its balance is debited and
immediately credited back), so the source is not decremented then. -/
theorem C2_transfer_conserves (s : St) (ef et : String) (a : ℚ)
    (hnd : (userKeys s.users).Nodup) (fu tu : UserRec)
    (hf : findUser s.users ef = some fu) (ht : findUser s.users et = some tu)
    (hpos : 0 < a) (hge : a ≤ fu.balance) :
    sumBalances (transfer ef et a s).1.users = sumBalances s.users ∧
    (ef ≠ et →
      getBal (transfer ef et a s).1.users ef = getBal s.users ef - a ∧
      getBal (transfer ef et a s).1.users et = getBal s.users et + a) ∧
    (ef = et → (transfer ef et a s).1.users = s.users) := by
  have ha : ¬ a ≤ 0 := not_le.mpr hpos
  have hb : ¬ fu.balance < a := not_lt.mpr hge
  have hstep : (transfer ef et a s).1.users =
      updUser (updUser s.users ef (fun u => { u with balance := u.balance - a }))
        et (fun u => { u with balance := u.balance + a }) := by
    unfold transfer
    rw [hf, ht]
    simp only []
    rw [if_neg ha, if_neg hb]
  rw [hstep]
  by_cases hee : ef = et
  · subst hee
    have hcomp := updUser_updUser s.users ef
      (fun u => { u with balance := u.balance - a })
      (fun u => { u with balance := u.balance + a })
    have hid : updUser s.users ef
        (fun u => (fun u => { u with balance := u.balance + a })
          ((fun u => { u with balance := u.balance - a }) u)) = s.users := by
      refine updUser_id_of _ _ _ ?_
      intro u
      cases u
      simp only []
      congr 1
      ring
    rw [hcomp, hid]
    exact ⟨rfl, fun hne => absurd rfl hne, fun _ => rfl⟩
  · have hne2 : ¬ et = ef := fun hc => hee hc.symm
    have hnd1 : (userKeys (updUser s.users ef
        (fun u => { u with balance := u.balance - a }))).Nodup := by
      simpa [userKeys_updUser] using hnd
    have hft1 : findUser (updUser s.users ef
        (fun u => { u with balance := u.balance - a })) et = some tu := by
      rw [findUser_updUser, if_neg hne2, ht]
    have hsum1 := sumBalances_updUser
      (fun u => { u with balance := u.balance - a }) hnd hf
    have hsum2 := sumBalances_updUser
      (fun u => { u with balance := u.balance + a }) hnd1 hft1
    refine ⟨?_, ?_, fun hc => absurd hc hee⟩
    · rw [hsum2, hsum1]
      simp only []
      ring
    · intro _
      constructor
      · rw [getBal, findUser_updUser, if_neg hee, findUser_updUser, if_pos rfl,
          hf, getBal, hf]
        rfl
      · rw [getBal, findUser_updUser, if_pos rfl, hft1, getBal, ht]
        rfl

theorem C2_transfer_conserves_witness :
    ((userKeys stW.users).Nodup ∧ findUser stW.users "a@x" = some uA ∧
      findUser stW.users "b@y" = some uB ∧ (0:ℚ) < 60 ∧ (60:ℚ) ≤ uA.balance) ∧
    (sumBalances (transfer "a@x" "b@y" 60 stW).1.users = sumBalances stW.users ∧
     ("a@x" ≠ "b@y" →
       getBal (transfer "a@x" "b@y" 60 stW).1.users "a@x" =
         getBal stW.users "a@x" - 60 ∧
       getBal (transfer "a@x" "b@y" 60 stW).1.users "b@y" =
         getBal stW.users "b@y" + 60) ∧
     ("a@x" = "b@y" → (transfer "a@x" "b@y" 60 stW).1.users = stW.users)) :=
  ⟨⟨by decide, by decide, by decide, by decide, by decide⟩,
   C2_transfer_conserves stW "a@x" "b@y" 60 (by decide) uA uB (by decide)
     (by decide) (by decide) (by decide)⟩

/-- C2 counterexample: transfer("a@x","a@x",50) from balance 100 succeeds
(HTTP 200, new_balance 100) yet the source balance stays 100 ≠ 100 - 50: the
claim's "source is decremented by amount" fails for a successful
self-transfer (conservation still holds). -/
theorem C2_self_transfer_cex :
    (transfer "a@x" "a@x" 50 stW).2 = .ok 100 ∧
    getBal (transfer "a@x" "a@x" 50 stW).1.users "a@x" = 100 ∧
    ¬ getBal (transfer "a@x" "a@x" 50 stW).1.users "a@x" =
        getBal stW.users "a@x" - 50 := by
  refine ⟨?_, ?_, ?_⟩ <;>
    norm_num [transfer, stW, uA, uB, findUser, updUser, getBal]

/-! ### Claim C4 -/

theorem reject_pending_commit (s : St) (index : Int) (now : String) (u : UserRec)
    (hlo : 0 ≤ index) (hhi : index < (s.withdraws.length : Int))
    (hst : (wAt s.withdraws index.toNat).status = "Pending")
    (hfind : findUser s.users (wAt s.withdraws index.toNat).user = some u) :
    (reject_withdraw index now s).2 = .ok () ∧
    getBal (reject_withdraw index now s).1.users
        (wAt s.withdraws index.toNat).user =
      getBal s.users (wAt s.withdraws index.toNat).user +
        (wAt s.withdraws index.toNat).amount ∧
    ((reject_withdraw index now s).1.withdraws[index.toNat]?) =
      some { wAt s.withdraws index.toNat with
             status := "Rejected", processed_at := some now } := by
  have hidx : ¬ (index < 0 ∨ (s.withdraws.length : Int) ≤ index) := by omega
  have hlen : index.toNat < s.withdraws.length := by omega
  unfold reject_withdraw
  rw [if_neg hidx]
  simp only []
  rw [if_neg (by simp [hst]), hfind]
  simp only []
  refine ⟨by trivial, ?_, ?_⟩
  · rw [getBal, findUser_updUser, if_pos rfl, hfind, getBal, hfind]
    rfl
  · exact List.getElem?_set_eq_of_lt _ hlen

theorem withdraw_then_reject_restores (s : St) (email : String) (a : ℚ)
    (noww nowr : String) (u : UserRec) (hfind : findUser s.users email = some u)
    (hpos : 0 < a) (hle : a ≤ u.balance) :
    getBal (reject_withdraw (s.withdraws.length : Int) nowr
      (withdraw email a noww s).1).1.users email = getBal s.users email := by
  have ha : ¬ a ≤ 0 := not_le.mpr hpos
  have hb : ¬ u.balance < a := not_lt.mpr hle
  have hw1 : (withdraw email a noww s).1 =
      ({ users := updUser s.users email
           (fun v => { v with balance := v.balance - a }),
         withdraws := s.withdraws ++
           [{ user := email, amount := a, status := "Pending",
              timestamp := noww, processed_at := none }] } : St) := by
    unfold withdraw
    rw [hfind]
    simp only []
    rw [if_neg ha, if_neg hb]
  have hlen1 : ((withdraw email a noww s).1).withdraws.length =
      s.withdraws.length + 1 := by
    rw [hw1]
    simp
  have hwat1 : wAt ((withdraw email a noww s).1).withdraws
      ((s.withdraws.length : Int)).toNat =
      { user := email, amount := a, status := "Pending",
        timestamp := noww, processed_at := none } := by
    rw [hw1]
    simp [wAt, List.getElem?_concat_length]
  have hfind1 : findUser ((withdraw email a noww s).1).users email =
      some { u with balance := u.balance - a } := by
    rw [hw1]
    show findUser (updUser s.users email
      (fun v => { v with balance := v.balance - a })) email = _
    rw [findUser_updUser, if_pos rfl, hfind]
    rfl
  obtain ⟨-, h2, -⟩ := reject_pending_commit ((withdraw email a noww s).1)
    (s.withdraws.length : Int) nowr { u with balance := u.balance - a }
    (by omega) (by rw [hlen1]; push_cast; omega) (by rw [hwat1])
    (by rw [hwat1]; exact hfind1)
  rw [hwat1] at h2
  simp only [] at h2
  rw [h2, getBal, hfind1, getBal, hfind]
  show u.balance - a + a = u.balance
  ring

/-- C4: rejecting an in-range Pending request (whose requesting user is
registered, as the data model's foreign key guarantees) succeeds, adds
exactly that request's amount back to the requesting user's balance, and
overwrites the record with status "Rejected" and a non-null processed_at;
consequently a successful withdraw immediately followed by reject of the
created request restores the user's original balance. -/
theorem C4_reject_refund :
    (∀ (s : St) (index : Int) (now : String) (u : UserRec),
      0 ≤ index → index < (s.withdraws.length : Int) →
      (wAt s.withdraws index.toNat).status = "Pending" →
      findUser s.users (wAt s.withdraws index.toNat).user = some u →
      (reject_withdraw index now s).2 = .ok () ∧
      getBal (reject_withdraw index now s).1.users
          (wAt s.withdraws index.toNat).user =
        getBal s.users (wAt s.withdraws index.toNat).user +
          (wAt s.withdraws index.toNat).amount ∧
      ((reject_withdraw index now s).1.withdraws[index.toNat]?) =
        some { wAt s.withdraws index.toNat with
               status := "Rejected", processed_at := some now }) ∧
    (∀ (s : St) (email : String) (a : ℚ) (noww nowr : String) (u : UserRec),
      findUser s.users email = some u → 0 < a → a ≤ u.balance →
      getBal (reject_withdraw (s.withdraws.length : Int) nowr
        (withdraw email a noww s).1).1.users email = getBal s.users email) :=
  ⟨fun s index now u hlo hhi hst hfind =>
     reject_pending_commit s index now u hlo hhi hst hfind,
   fun s email a noww nowr u hfind hpos hle =>
     withdraw_then_reject_restores s email a noww nowr u hfind hpos hle⟩

theorem C4_reject_refund_witness :
    (((0:Int) ≤ 0 ∧ (0:Int) < (stP.withdraws.length : Int) ∧
       (wAt stP.withdraws (0:Int).toNat).status = "Pending" ∧
       findUser stP.users (wAt stP.withdraws (0:Int).toNat).user = some uA) ∧
     ((reject_withdraw 0 "t2" stP).2 = .ok () ∧
      getBal (reject_withdraw 0 "t2" stP).1.users
          (wAt stP.withdraws (0:Int).toNat).user =
        getBal stP.users (wAt stP.withdraws (0:Int).toNat).user +
          (wAt stP.withdraws (0:Int).toNat).amount ∧
      ((reject_withdraw 0 "t2" stP).1.withdraws[(0:Int).toNat]?) =
        some { wAt stP.withdraws (0:Int).toNat with
               status := "Rejected", processed_at := some "t2" })) ∧
    getBal (reject_withdraw (stW.withdraws.length : Int) "t2"
      (withdraw "a@x" 40 "t1" stW).1).1.users "a@x" = getBal stW.users "a@x" :=
  ⟨⟨⟨by decide, by decide, by decide, by decide⟩,
    C4_reject_refund.1 stP 0 "t2" uA (by decide) (by decide) (by decide)
      (by decide)⟩,
   C4_reject_refund.2 stW "a@x" 40 "t1" "t2" uA (by decide) (by decide)
     (by decide)⟩

/-! ### Claim C9 -/

/-- C9 (amended): with no filter, list_withdraws returns all requests; a
supplied string that is exactly one of "Pending"/"Approved"/"Rejected"
(case-sensitively) selects the requests whose status matches it
case-insensitively; any other non-empty string takes the error branch, which
— because the `status` parameter shadows the fastapi `status` module —
raises AttributeError (surfaced as HTTP 500) instead of the intended
InvalidInput 400. -/
theorem C9_status_filter (s : St) (q : String) :
    (get_withdraws none s).2 = .ok s.withdraws ∧
    (q = "Pending" ∨ q = "Approved" ∨ q = "Rejected" →
      (get_withdraws (some q) s).2 =
        .ok (s.withdraws.filter (fun w => pyLower w.status = pyLower q))) ∧
    (q ≠ "" → q ≠ "Pending" → q ≠ "Approved" → q ≠ "Rejected" →
      (get_withdraws (some q) s).2 = .error .statusAttrError) := by
  refine ⟨rfl, ?_, ?_⟩
  · rintro (rfl | rfl | rfl) <;> rfl
  · intro h0 h1 h2 h3
    unfold get_withdraws
    simp only []
    rw [if_neg h0, if_pos ⟨h1, h2, h3⟩]

theorem C9_status_filter_witness :
    ((get_withdraws (some "Approved") stA).2 =
      .ok (stA.withdraws.filter (fun w => pyLower w.status = pyLower "Approved"))) ∧
    ((get_withdraws (some "zzz") stA).2 = .error .statusAttrError) :=
  ⟨(C9_status_filter stA "Approved").2.1 (Or.inr (Or.inl rfl)),
   (C9_status_filter stA "zzz").2.2 (by decide) (by decide) (by decide)
     (by decide)⟩

/-- C9 counterexample: the filter string "pending" matches "Pending"
case-insensitively, yet get_withdraws does not return the filtered list:
the validity check `status not in valid_statuses` is case-sensitive, so the
call takes the error branch (which, due to the shadowed `status` module,
raises AttributeError / HTTP 500 rather than a clean InvalidInput 400). -/
theorem C9_lowercase_filter_cex :
    pyLower "pending" = pyLower "Pending" ∧
    (get_withdraws (some "pending") stP).2 = .error .statusAttrError ∧
    (get_withdraws (some "pending") stP).2 ≠
      .ok (stP.withdraws.filter (fun w => pyLower w.status = pyLower "pending")) :=
  ⟨by decide, rfl, by decide⟩
